import Mathlib

/-!
Verification of the dcompass upstream registry (`droute/src/router/upstreams.rs`)
and server front-end (`dcompass/src/main.rs`).

The registry is embedded shallowly: the `hashbrown::HashMap` of labelled
upstreams becomes an association list (lookup returns the first binding; the
maps built by `Upstreams::new` are duplicate-free, so this matches any map),
and the recursive validation and resolution routines become fuel-indexed
structural recursions where the fuel bounds the recursion depth.
-/

/-- A label naming an upstream (`droute::Label`). -/
abbrev Label := String

/-- The error type of the `upstreams` section (`upstreams/error.rs`, variants as
used by `upstreams.rs`; the catch-all `clientError` stands for the transport
errors a leaf resolver may surface). -/
inductive UpstreamError where
  | multipleDef (tag : Label)
  | missingTag (tag : Label)
  | emptyHybrid (tag : Label)
  | hybridRecursion (tag : Label)
  | clientError (detail : String)
deriving DecidableEq, Repr

/-- Modelled from the spec: `Upstream` (defined in `upstream.rs`, which is not
among the sources at hand) is either a leaf backed by its own resolver or a
hybrid holding an ordered list of member labels. -/
inductive Upstream (Msg : Type) where
  | leaf (resolver : Msg → Except UpstreamError Msg)
  | hybrid (tags : List Label)

/-- Modelled from the spec: `Upstream::try_hybrid` yields the member list of a
hybrid and `none` for a leaf. -/
def Upstream.tryHybrid {Msg : Type} : Upstream Msg → Option (List Label)
  | .leaf _ => none
  | .hybrid v => some v

/-- Modelled from the spec: a leaf upstream's own `resolve` (`upstream.rs`).
`Upstreams::resolve` only reaches this when `try_hybrid` returned `none`, so
the hybrid branch here is never taken. -/
def Upstream.resolveSelf {Msg : Type} : Upstream Msg → Msg → Except UpstreamError Msg
  | .leaf f, msg => f msg
  | .hybrid _, _ => .error (.clientError "unreachable")

/-- The map held by `Upstreams`, as an association list. -/
abbrev Registry (Msg : Type) := List (Label × Upstream Msg)

namespace Upstreams

/-- `HashMap::get` on the association list: the first binding with the key. -/
def lookupTag {Msg : Type} : Registry Msg → Label → Option (Upstream Msg)
  | [], _ => none
  | (k, u) :: rest, tag => if k = tag then some u else lookupTag rest tag

/-- The labels present in the map. -/
def keys {Msg : Type} (reg : Registry Msg) : List Label := reg.map Prod.fst

/-- Result of a fuel-indexed traversal: `out` means the fuel ran out (the model
of non-termination), the other two are the `Result` of the Rust code. -/
inductive TRes (α : Type) where
  | out : TRes α
  | fail : UpstreamError → TRes α
  | ok : α → TRes α
deriving DecidableEq, Repr

/-- The `for t in v { self.traverse(l, t)? }` loop of `Upstreams::traverse`,
threading the visited set through the member calls of one hybrid. -/
def foldTraverse (step : List Label → Label → TRes (List Label)) :
    List Label → List Label → TRes (List Label)
  | l, [] => .ok l
  | l, t :: ts =>
    match step l t with
    | .out => .out
    | .fail e => .fail e
    | .ok l2 => foldTraverse step l2 ts

/-- `Upstreams::traverse` (upstreams.rs lines 75 to 100): depth-first check of
one label against the visited set `l`, with `fuel` bounding the recursion
depth. A successful result returns the grown visited set. -/
def traverseF {Msg : Type} (reg : Registry Msg) : Nat → List Label → Label → TRes (List Label)
  | 0, _, _ => .out
  | fuel + 1, l, tag =>
    if tag ∈ l then .fail (.hybridRecursion tag)
    else
      let l2 := tag :: l
      match lookupTag reg tag with
      | none => .fail (.missingTag tag)
      | some u =>
        match u.tryHybrid with
        | none => .ok l2
        | some v =>
          if v = [] then .fail (.emptyHybrid tag)
          else foldTraverse (fun l3 t => traverseF reg fuel l3 t) l2 v

/-- `Upstreams::check` body: traverse from every listed tag with a fresh
visited set. -/
def checkTags {Msg : Type} (reg : Registry Msg) (fuel : Nat) : List Label → TRes Bool
  | [] => .ok true
  | t :: ts =>
    match traverseF reg fuel [] t with
    | .out => .out
    | .fail e => .fail e
    | .ok _ => checkTags reg fuel ts

/-- Fuel sufficient for `traverseF` (proved adequate below): one more than the
number of entries of the map. -/
def checkFuel {Msg : Type} (reg : Registry Msg) : Nat := reg.length + 1

/-- `Upstreams::check` (upstreams.rs lines 103 to 108). The `out` branch is
dead code: the termination theorem below shows `checkTags` never runs out of
fuel at `checkFuel`. -/
def check {Msg : Type} (reg : Registry Msg) : Except UpstreamError Bool :=
  match checkTags reg (checkFuel reg) (keys reg) with
  | .ok b => .ok b
  | .fail e => .error e
  | .out => .error (.hybridRecursion "")

/-- The duplicate-rejecting insertion loop of `Upstreams::new` (lines 45 to
54). -/
def newMap {Msg : Type} : Registry Msg → List (Label × Upstream Msg) →
    Except UpstreamError (Registry Msg)
  | acc, [] => .ok acc
  | acc, (k, u) :: rest =>
    match lookupTag acc k with
    | some _ => .error (.multipleDef k)
    | none => newMap (acc ++ [(k, u)]) rest

/-- `Upstreams::new` (upstreams.rs lines 44 to 58): build the map, then
validate it with `check`. -/
def new {Msg : Type} (ups : List (Label × Upstream Msg)) :
    Except UpstreamError (Registry Msg) :=
  match newMap [] ups with
  | .error e => .error e
  | .ok reg =>
    match check reg with
    | .error e => .error e
    | .ok _ => .ok reg

/-- `Upstreams::exists` (upstreams.rs lines 111 to 117). -/
def existsTag {Msg : Type} (reg : Registry Msg) (tag : Label) : Except UpstreamError Bool :=
  match lookupTag reg tag with
  | some _ => .ok true
  | none => .error (.missingTag tag)

/-- Outcome of a fuel-indexed resolution: `panic` models the `unwrap` on the
map lookup (and the `select_ok` assertion on an empty iterator), `diverge`
models exhausted fuel, `res` is the `Result` the Rust code returns. -/
inductive RRes (Msg : Type) where
  | panic : RRes Msg
  | diverge : RRes Msg
  | res : Except UpstreamError Msg → RRes Msg

/-- `futures::future::select_ok` over already-determined outcomes, polled in
list order: the first success wins, failed members are dropped, and when every
member fails the error of the member that failed last (the last of the list)
is returned. `select_ok` panics on an empty iterator. A pending (diverging)
member keeps the race pending unless a later member succeeds or panics. -/
def raceList {Msg : Type} : List (RRes Msg) → RRes Msg
  | [] => .panic
  | [r] => r
  | r :: s :: rs =>
    match r with
    | .res (.ok m) => .res (.ok m)
    | .panic => .panic
    | .res (.error _) => raceList (s :: rs)
    | .diverge =>
      match raceList (s :: rs) with
      | .res (.ok m) => .res (.ok m)
      | .panic => .panic
      | .res (.error _) => .diverge
      | .diverge => .diverge

/-- `Upstreams::resolve` (upstreams.rs lines 121 to 137): look the tag up with
`unwrap`, race the members of a hybrid with `select_ok`, delegate to the leaf
resolver otherwise. `fuel` bounds the recursion depth through hybrids. -/
def resolveF {Msg : Type} (reg : Registry Msg) : Nat → Label → Msg → RRes Msg
  | 0, _, _ => .diverge
  | fuel + 1, tag, msg =>
    match lookupTag reg tag with
    | none => .panic
    | some u =>
      match u.tryHybrid with
      | some v => raceList (v.map fun t => resolveF reg fuel t msg)
      | none => .res (u.resolveSelf msg)

/-- The hybrid-edge relation of the spec: an edge runs from a hybrid to each
of its member labels. -/
def Edge {Msg : Type} (reg : Registry Msg) (x y : Label) : Prop :=
  ∃ u v, lookupTag reg x = some u ∧ u.tryHybrid = some v ∧ y ∈ v

/-- A cycle in the hybrid-edge graph. -/
def HasCycle {Msg : Type} (reg : Registry Msg) : Prop :=
  ∃ x, Relation.TransGen (Edge reg) x x

/-- Decidable well-formedness used as a hypothesis: every hybrid is non-empty
and references only labels present in the map. -/
def hybridsWF {Msg : Type} (reg : Registry Msg) : Bool :=
  reg.all fun p =>
    match (Prod.snd p).tryHybrid with
    | none => true
    | some v => (!v.isEmpty) && v.all fun m => decide (m ∈ keys reg)

/-! ### Lookup lemmas -/

theorem lookupTag_mem {Msg : Type} {reg : Registry Msg} {tag : Label} {u : Upstream Msg}
    (h : lookupTag reg tag = some u) : tag ∈ keys reg := by
  induction reg with
  | nil => simp [lookupTag] at h
  | cons p rest ih =>
    obtain ⟨k, w⟩ := p
    by_cases hk : k = tag
    · subst hk; simp [keys]
    · simp only [lookupTag, if_neg hk] at h
      simpa [keys] using Or.inr (ih h)

theorem mem_lookupTag {Msg : Type} {reg : Registry Msg} {tag : Label}
    (h : tag ∈ keys reg) : ∃ u, lookupTag reg tag = some u := by
  induction reg with
  | nil => simp [keys] at h
  | cons p rest ih =>
    obtain ⟨k, w⟩ := p
    by_cases hk : k = tag
    · exact ⟨w, by simp [lookupTag, hk]⟩
    · simp only [keys, List.map_cons, List.mem_cons] at h
      rcases h with h | h
      · exact absurd h.symm hk
      · obtain ⟨u, hu⟩ := ih h
        exact ⟨u, by simp [lookupTag, hk, hu]⟩

theorem lookupTag_mem_pair {Msg : Type} {reg : Registry Msg} {tag : Label} {u : Upstream Msg}
    (h : lookupTag reg tag = some u) : (tag, u) ∈ reg := by
  induction reg with
  | nil => simp [lookupTag] at h
  | cons p rest ih =>
    obtain ⟨k, w⟩ := p
    by_cases hk : k = tag
    · subst hk
      have hw : w = u := by simpa [lookupTag] using h
      subst hw; exact List.mem_cons_self _ _
    · simp only [lookupTag, if_neg hk] at h
      exact List.mem_cons_of_mem _ (ih h)

theorem lookupTag_of_nodup {Msg : Type} {reg : Registry Msg} {k : Label} {u : Upstream Msg}
    (hnd : (keys reg).Nodup) (h : (k, u) ∈ reg) : lookupTag reg k = some u := by
  induction reg with
  | nil => simp at h
  | cons p rest ih =>
    obtain ⟨k', w⟩ := p
    simp only [keys, List.map_cons, List.nodup_cons] at hnd
    rcases List.mem_cons.mp h with h | h
    · simp only [Prod.mk.injEq] at h
      obtain ⟨rfl, rfl⟩ := h
      simp [lookupTag]
    · have hk : k' ≠ k := by
        intro hkk
        subst hkk
        exact hnd.1 (by simpa [keys] using List.mem_map_of_mem Prod.fst h)
      simp only [lookupTag, if_neg hk]
      exact ih hnd.2 h

/-! ### Generic lemmas about the member fold -/

theorem foldTraverse_subset {step : List Label → Label → TRes (List Label)}
    (hstep : ∀ la t lb, step la t = .ok lb → la ⊆ lb) :
    ∀ ms l l', foldTraverse step l ms = .ok l' → l ⊆ l' := by
  intro ms
  induction ms with
  | nil => intro l l' h; simp only [foldTraverse, TRes.ok.injEq] at h; subst h; exact fun _ a => a
  | cons t ts ih =>
    intro l l' h
    simp only [foldTraverse] at h
    rcases hs : step l t with _ | e | l2 <;> rw [hs] at h
    · cases h
    · cases h
    · exact (hstep l t l2 hs).trans (ih l2 l' h)

theorem foldTraverse_mem_ok {step : List Label → Label → TRes (List Label)} :
    ∀ ms l l', foldTraverse step l ms = .ok l' →
      ∀ m ∈ ms, ∃ la lb, step la m = .ok lb := by
  intro ms
  induction ms with
  | nil => intro l l' _ m hm; simp at hm
  | cons t ts ih =>
    intro l l' h m hm
    simp only [foldTraverse] at h
    rcases hs : step l t with _ | e | l2 <;> rw [hs] at h
    · cases h
    · cases h
    · rcases List.mem_cons.mp hm with rfl | hm
      · exact ⟨l, l2, hs⟩
      · exact ih l2 l' h m hm

theorem foldTraverse_fail {step : List Label → Label → TRes (List Label)} :
    ∀ ms l e, foldTraverse step l ms = .fail e →
      ∃ la m, m ∈ ms ∧ step la m = .fail e := by
  intro ms
  induction ms with
  | nil => intro l e h; simp [foldTraverse] at h
  | cons t ts ih =>
    intro l e h
    simp only [foldTraverse] at h
    rcases hs : step l t with _ | e' | l2 <;> rw [hs] at h
    · cases h
    · cases h; exact ⟨l, t, List.mem_cons_self _ _, hs⟩
    · obtain ⟨la, m, hm, hsm⟩ := ih l2 e h
      exact ⟨la, m, List.mem_cons_of_mem _ hm, hsm⟩

theorem foldTraverse_ne_out {step : List Label → Label → TRes (List Label)}
    (P : List Label → Prop)
    (hstep_sub : ∀ la t lb, step la t = .ok lb → la ⊆ lb)
    (hmono : ∀ la lb, P la → la ⊆ lb → P lb)
    (hne : ∀ la t, P la → step la t ≠ .out) :
    ∀ ms l, P l → foldTraverse step l ms ≠ .out := by
  intro ms
  induction ms with
  | nil => intro l _ h; simp [foldTraverse] at h
  | cons t ts ih =>
    intro l hP h
    simp only [foldTraverse] at h
    rcases hs : step l t with _ | e | l2 <;> rw [hs] at h
    · exact hne l t hP hs
    · cases h
    · exact ih l2 (hmono l l2 hP (hstep_sub l t l2 hs)) h

/-! ### Unfolding and basic facts about `traverseF` -/

theorem traverseF_succ {Msg : Type} (reg : Registry Msg) (fuel : Nat) (l : List Label)
    (tag : Label) :
    traverseF reg (fuel + 1) l tag =
      if tag ∈ l then .fail (.hybridRecursion tag)
      else
        match lookupTag reg tag with
        | none => .fail (.missingTag tag)
        | some u =>
          match u.tryHybrid with
          | none => .ok (tag :: l)
          | some v =>
            if v = [] then .fail (.emptyHybrid tag)
            else foldTraverse (fun l3 t => traverseF reg fuel l3 t) (tag :: l) v := rfl

theorem traverseF_subset {Msg : Type} {reg : Registry Msg} :
    ∀ fuel l tag l', traverseF reg fuel l tag = .ok l' → l ⊆ l' := by
  intro fuel
  induction fuel with
  | zero => intro l tag l' h; exact absurd h (by simp [traverseF])
  | succ f ih =>
    intro l tag l' h
    rw [traverseF_succ] at h
    split at h
    · exact TRes.noConfusion h
    · split at h
      · exact TRes.noConfusion h
      · split at h
        · cases h; exact fun x hx => List.mem_cons_of_mem _ hx
        · split at h
          · exact TRes.noConfusion h
          · refine List.Subset.trans ?_ (foldTraverse_subset (fun la t lb => ih la t lb) _ _ _ h)
            exact fun x hx => List.mem_cons_of_mem _ hx

theorem traverseF_ok_lookup {Msg : Type} {reg : Registry Msg} {fuel : Nat}
    {l l' : List Label} {tag : Label} (h : traverseF reg fuel l tag = .ok l') :
    ∃ u, lookupTag reg tag = some u := by
  cases fuel with
  | zero => exact absurd h (by simp [traverseF])
  | succ f =>
    rw [traverseF_succ] at h
    split at h
    · exact TRes.noConfusion h
    · split at h
      · exact TRes.noConfusion h
      · rename_i u hu; exact ⟨u, hu⟩

/-- A successful traversal of a hybrid yields a successful (smaller-fuel)
traversal of every member. -/
theorem traverseF_ok_hybrid {Msg : Type} {reg : Registry Msg} {fuel : Nat}
    {l l' : List Label} {tag : Label} {u : Upstream Msg} {v : List Label}
    (h : traverseF reg (fuel + 1) l tag = .ok l')
    (hu : lookupTag reg tag = some u) (hv : u.tryHybrid = some v) :
    v ≠ [] ∧ ∀ m ∈ v, ∃ la lb, traverseF reg fuel la m = .ok lb := by
  rw [traverseF_succ] at h
  split at h
  · exact TRes.noConfusion h
  · rw [hu] at h
    simp only at h
    rw [hv] at h
    simp only at h
    split at h
    · exact TRes.noConfusion h
    · rename_i hne
      exact ⟨hne, fun m hm => foldTraverse_mem_ok _ _ _ h m hm⟩

/-! ### Fuel adequacy: the recursion depth is bounded by the number of keys -/

theorem length_filter_mono {α : Type} (p q : α → Bool) (h : ∀ a, p a = true → q a = true) :
    ∀ xs : List α, (xs.filter p).length ≤ (xs.filter q).length := by
  intro xs
  induction xs with
  | nil => simp
  | cons b xs ih =>
    by_cases hp : p b = true
    · simp [List.filter_cons, hp, h b hp]; omega
    · have hp' : p b = false := by simpa using hp
      by_cases hq : q b = true <;>
        simp [List.filter_cons, hp', hq] <;> omega

theorem length_filter_lt {α : Type} (p q : α → Bool) (h : ∀ a, p a = true → q a = true)
    (a : α) (hqa : q a = true) (hpa : p a = false) :
    ∀ xs : List α, a ∈ xs → (xs.filter p).length < (xs.filter q).length := by
  intro xs
  induction xs with
  | nil => intro hmem; simp at hmem
  | cons b xs ih =>
    intro hmem
    rcases List.mem_cons.mp hmem with rfl | hmem
    · have hmono := length_filter_mono p q h xs
      simp [List.filter_cons, hpa, hqa]
      omega
    · by_cases hp : p b = true
      · have hmono := ih hmem
        simp [List.filter_cons, hp, h b hp]
        omega
      · have hp' : p b = false := by simpa using hp
        have hmono := ih hmem
        by_cases hq : q b = true
        · simp [List.filter_cons, hp', hq]
          omega
        · have hq' : q b = false := by simpa using hq
          simp [List.filter_cons, hp', hq']
          omega

/-- Number of distinct keys of the map not yet in the visited set: the measure
bounding the depth of `Upstreams::traverse`. -/
def freshCount {Msg : Type} (reg : Registry Msg) (l : List Label) : Nat :=
  ((keys reg).dedup.filter fun k => decide (k ∉ l)).length

theorem freshCount_mono {Msg : Type} {reg : Registry Msg} {l l2 : List Label}
    (h : l ⊆ l2) : freshCount reg l2 ≤ freshCount reg l := by
  refine length_filter_mono _ _ ?_ _
  intro a ha
  simp only [decide_eq_true_eq] at ha ⊢
  exact fun hal => ha (h hal)

theorem freshCount_lt {Msg : Type} {reg : Registry Msg} {l : List Label} {tag : Label}
    (htag : tag ∈ keys reg) (hnl : tag ∉ l) :
    freshCount reg (tag :: l) < freshCount reg l := by
  refine length_filter_lt _ _ ?_ tag ?_ ?_ _ (List.mem_dedup.mpr htag)
  · intro a ha
    simp only [decide_eq_true_eq] at ha ⊢
    exact fun hal => ha (List.mem_cons_of_mem _ hal)
  · simpa using hnl
  · simp

theorem traverseF_ne_out {Msg : Type} {reg : Registry Msg} :
    ∀ fuel l tag, freshCount reg l < fuel → traverseF reg fuel l tag ≠ .out := by
  intro fuel
  induction fuel with
  | zero => intro l tag h; omega
  | succ f ih =>
    intro l tag hlt h
    rw [traverseF_succ] at h
    split at h
    · exact TRes.noConfusion h
    · rename_i hmem
      split at h
      · exact TRes.noConfusion h
      · rename_i u hu
        split at h
        · exact TRes.noConfusion h
        · split at h
          · exact TRes.noConfusion h
          · have htag : tag ∈ keys reg := lookupTag_mem hu
            have hstart : freshCount reg (tag :: l) < f := by
              have hdec : freshCount reg (tag :: l) < freshCount reg l :=
                freshCount_lt htag hmem
              omega
            exact foldTraverse_ne_out (fun la => freshCount reg la < f)
              (fun la t lb hok => traverseF_subset f la t lb hok)
              (fun la lb hP hsub => lt_of_le_of_lt (freshCount_mono hsub) hP)
              (fun la t hP => ih la t hP) _ _ hstart h

/-- The fuel `checkFuel` is adequate from an empty visited set. -/
theorem traverseF_checkFuel_ne_out {Msg : Type} (reg : Registry Msg) (tag : Label) :
    traverseF reg (checkFuel reg) [] tag ≠ .out := by
  refine traverseF_ne_out _ _ _ ?_
  have h1 : ((keys reg).dedup.filter fun k => decide (k ∉ ([] : List Label))).length ≤
      (keys reg).dedup.length := List.length_filter_le _ _
  have h2 : (keys reg).dedup.length ≤ (keys reg).length :=
    (List.dedup_sublist (keys reg)).length_le
  have h3 : (keys reg).length = reg.length := List.length_map _ _
  simp only [freshCount, checkFuel]
  omega

/-! ### Accessibility: a successful traversal rules out cycles below its root -/

theorem acc_irrefl {α : Type} {r : α → α → Prop} {x : α} (h : Acc r x) : ¬ r x x := by
  induction h with
  | intro y hy ih => exact fun hr => ih y hr hr

theorem acc_transGen {α : Type} {r : α → α → Prop} {x : α} (h : Acc r x) :
    Acc (Relation.TransGen r) x := by
  induction h with
  | intro y hy ih =>
    constructor
    intro z hz
    cases hz with
    | single h1 => exact ih z h1
    | tail h1 h2 => exact (ih _ h2).inv h1

theorem transGen_first_step {α : Type} {r : α → α → Prop} {a b : α}
    (h : Relation.TransGen r a b) : ∃ c, r a c := by
  induction h with
  | single h => exact ⟨_, h⟩
  | tail _ _ ih => exact ih

theorem traverseF_ok_acc {Msg : Type} {reg : Registry Msg} :
    ∀ fuel l tag l', traverseF reg fuel l tag = .ok l' →
      Acc (Function.swap (Edge reg)) tag := by
  intro fuel
  induction fuel with
  | zero => intro l tag l' h; exact absurd h (by simp [traverseF])
  | succ f ih =>
    intro l tag l' h
    constructor
    intro y hy
    have hedge : Edge reg tag y := hy
    obtain ⟨u, v, hu, hv, hyv⟩ := hedge
    obtain ⟨_, hmem⟩ := traverseF_ok_hybrid h hu hv
    obtain ⟨la, lb, hla⟩ := hmem y hyv
    exact ih la y lb hla

/-! ### Lemmas about `check` -/

theorem checkTags_ok_traverse {Msg : Type} {reg : Registry Msg} {fuel : Nat} :
    ∀ ts b, checkTags reg fuel ts = .ok b →
      ∀ t ∈ ts, ∃ l', traverseF reg fuel [] t = .ok l' := by
  intro ts
  induction ts with
  | nil => intro b _ t ht; simp at ht
  | cons t0 ts ih =>
    intro b h t ht
    simp only [checkTags] at h
    rcases hs : traverseF reg fuel [] t0 with _ | e | l' <;> rw [hs] at h
    · exact TRes.noConfusion h
    · exact TRes.noConfusion h
    · rcases List.mem_cons.mp ht with rfl | ht
      · exact ⟨l', hs⟩
      · exact ih b h t ht

theorem checkTags_fail_mem {Msg : Type} {reg : Registry Msg} {fuel : Nat} :
    ∀ ts e, checkTags reg fuel ts = .fail e →
      ∃ t ∈ ts, traverseF reg fuel [] t = .fail e := by
  intro ts
  induction ts with
  | nil => intro e h; simp [checkTags] at h
  | cons t0 ts ih =>
    intro e h
    simp only [checkTags] at h
    rcases hs : traverseF reg fuel [] t0 with _ | e' | l' <;> rw [hs] at h
    · exact TRes.noConfusion h
    · cases h; exact ⟨t0, List.mem_cons_self _ _, hs⟩
    · obtain ⟨t, ht, hts⟩ := ih e h
      exact ⟨t, List.mem_cons_of_mem _ ht, hts⟩

theorem checkTags_ne_out {Msg : Type} {reg : Registry Msg} {fuel : Nat} :
    ∀ ts, (∀ t ∈ ts, traverseF reg fuel [] t ≠ .out) → checkTags reg fuel ts ≠ .out := by
  intro ts
  induction ts with
  | nil => intro _ h; simp [checkTags] at h
  | cons t0 ts ih =>
    intro hne h
    simp only [checkTags] at h
    rcases hs : traverseF reg fuel [] t0 with _ | e | l' <;> rw [hs] at h
    · exact hne t0 (List.mem_cons_self _ _) hs
    · exact TRes.noConfusion h
    · exact ih (fun t ht => hne t (List.mem_cons_of_mem _ ht)) h

/-- `Upstreams::check` never runs out of fuel: its recursion terminates on
every registry, cyclic ones included. -/
theorem check_no_fuel_out {Msg : Type} (reg : Registry Msg) :
    checkTags reg (checkFuel reg) (keys reg) ≠ .out :=
  checkTags_ne_out _ (fun t _ => traverseF_checkFuel_ne_out reg t)

theorem check_ok_traverse {Msg : Type} {reg : Registry Msg} {b : Bool}
    (h : check reg = .ok b) :
    ∀ t ∈ keys reg, ∃ l', traverseF reg (checkFuel reg) [] t = .ok l' := by
  unfold check at h
  rcases hs : checkTags reg (checkFuel reg) (keys reg) with _ | e | b' <;> rw [hs] at h
  · exact Except.noConfusion h
  · exact Except.noConfusion h
  · exact checkTags_ok_traverse _ _ hs

/-- In a registry that passed `check`, every hybrid is non-empty and all its
members are present in the map. -/
theorem check_ok_members {Msg : Type} {reg : Registry Msg} {b : Bool} {tag : Label}
    {u : Upstream Msg} {v : List Label} (hchk : check reg = .ok b)
    (hu : lookupTag reg tag = some u) (hv : u.tryHybrid = some v) :
    v ≠ [] ∧ ∀ m ∈ v, ∃ u', lookupTag reg m = some u' := by
  obtain ⟨l', hl'⟩ := check_ok_traverse hchk tag (lookupTag_mem hu)
  have hcf : checkFuel reg = (checkFuel reg - 1) + 1 := by simp [checkFuel]
  rw [hcf] at hl'
  obtain ⟨hne, hmem⟩ := traverseF_ok_hybrid hl' hu hv
  refine ⟨hne, fun m hm => ?_⟩
  obtain ⟨la, lb, hla⟩ := hmem m hm
  exact traverseF_ok_lookup hla

theorem check_ok_noCycle {Msg : Type} {reg : Registry Msg} {b : Bool}
    (h : check reg = .ok b) : ¬ HasCycle reg := by
  rintro ⟨x, hx⟩
  obtain ⟨c, u, v, hu, hv, hcv⟩ := transGen_first_step hx
  obtain ⟨l', hl'⟩ := check_ok_traverse h x (lookupTag_mem hu)
  have hacc := traverseF_ok_acc _ _ _ _ hl'
  exact acc_irrefl (acc_transGen hacc) (Relation.transGen_swap.mpr hx)

/-- Under the well-formedness hypotheses (no dangling member labels, no empty
hybrids), every traversal failure is a `HybridRecursion`. -/
theorem traverseF_fail_shape {Msg : Type} {reg : Registry Msg}
    (hwf : ∀ tag u v, lookupTag reg tag = some u → u.tryHybrid = some v →
      v ≠ [] ∧ ∀ m ∈ v, m ∈ keys reg) :
    ∀ fuel l tag e, tag ∈ keys reg → traverseF reg fuel l tag = .fail e →
      ∃ t, e = .hybridRecursion t := by
  intro fuel
  induction fuel with
  | zero => intro l tag e _ h; exact absurd h (by simp [traverseF])
  | succ f ih =>
    intro l tag e htag h
    rw [traverseF_succ] at h
    split at h
    · cases h; exact ⟨tag, rfl⟩
    · split at h
      · rename_i hu
        obtain ⟨u, hu'⟩ := mem_lookupTag htag
        rw [hu'] at hu; exact Option.noConfusion hu
      · rename_i u hu
        split at h
        · exact TRes.noConfusion h
        · rename_i v hv
          split at h
          · rename_i hveq
            exact absurd hveq (hwf tag u v hu hv).1
          · obtain ⟨la, m, hm, hla⟩ := foldTraverse_fail _ _ _ h
            exact ih la m e ((hwf tag u v hu hv).2 m hm) hla

/-! ### Lemmas about `newMap` -/

theorem newMap_ok_eq {Msg : Type} :
    ∀ (ups acc reg : Registry Msg), newMap acc ups = .ok reg →
      reg = acc ++ ups ∧ ((keys acc).Nodup → (keys reg).Nodup) := by
  intro ups
  induction ups with
  | nil =>
    intro acc reg h
    simp only [newMap, Except.ok.injEq] at h
    subst h
    exact ⟨by simp, fun h => h⟩
  | cons p rest ih =>
    intro acc reg h
    obtain ⟨k, u⟩ := p
    simp only [newMap] at h
    rcases hk : lookupTag acc k with _ | u' <;> rw [hk] at h
    · obtain ⟨heq, hnd⟩ := ih (acc ++ [(k, u)]) reg h
      constructor
      · rw [heq, List.append_assoc]; rfl
      · intro hnda
        refine hnd ?_
        have hknotin : k ∉ keys acc := by
          intro hmem
          obtain ⟨u'', hu''⟩ := mem_lookupTag hmem
          rw [hu''] at hk; exact Option.noConfusion hk
        simp only [keys, List.map_append, List.map_cons, List.map_nil]
        rw [List.nodup_append]
        refine ⟨hnda, List.nodup_singleton _, ?_⟩
        intro a ha hb
        simp only [List.mem_singleton] at hb
        subst hb
        exact hknotin ha
    · exact Except.noConfusion h

theorem newMap_of_nodup {Msg : Type} :
    ∀ (ups acc : Registry Msg), (keys (acc ++ ups)).Nodup →
      newMap acc ups = .ok (acc ++ ups) := by
  intro ups
  induction ups with
  | nil => intro acc _; simp [newMap]
  | cons p rest ih =>
    intro acc hnd
    obtain ⟨k, u⟩ := p
    have hknotin : k ∉ keys acc := by
      intro hmem
      simp only [keys, List.map_append] at hnd
      obtain ⟨_, _, hdisj⟩ := List.nodup_append.mp hnd
      exact hdisj hmem (by simp)
    have hk : lookupTag acc k = none := by
      rcases hk : lookupTag acc k with _ | u'
      · rfl
      · exact absurd (lookupTag_mem hk) hknotin
    simp only [newMap, hk]
    have hassoc : acc ++ (k, u) :: rest = (acc ++ [(k, u)]) ++ rest := by
      rw [List.append_assoc]; rfl
    rw [hassoc] at hnd ⊢
    exact ih (acc ++ [(k, u)]) hnd

theorem newMap_cases {Msg : Type} :
    ∀ (ups acc : Registry Msg),
      (∃ reg, newMap acc ups = .ok reg) ∨ (∃ l, newMap acc ups = .error (.multipleDef l)) := by
  intro ups
  induction ups with
  | nil => intro acc; exact Or.inl ⟨acc, rfl⟩
  | cons p rest ih =>
    intro acc
    obtain ⟨k, u⟩ := p
    rcases hk : lookupTag acc k with _ | u'
    · simpa only [newMap, hk] using ih (acc ++ [(k, u)])
    · exact Or.inr ⟨k, by simp only [newMap, hk]⟩

theorem newMap_err_dup {Msg : Type} :
    ∀ (ups acc : Registry Msg) (l : Label), newMap acc ups = .error (.multipleDef l) →
      l ∈ keys ups ∧ (l ∈ keys acc ∨ 2 ≤ (keys ups).count l) := by
  intro ups
  induction ups with
  | nil => intro acc l h; exact absurd h (by simp [newMap])
  | cons p rest ih =>
    intro acc l h
    obtain ⟨k, u⟩ := p
    simp only [newMap] at h
    rcases hk : lookupTag acc k with _ | u' <;> rw [hk] at h
    · obtain ⟨hmem, hor⟩ := ih (acc ++ [(k, u)]) l h
      refine ⟨List.mem_cons_of_mem _ hmem, ?_⟩
      rcases hor with hacc | hcount
      · simp only [keys, List.map_append, List.mem_append, List.map_cons, List.map_nil,
          List.mem_singleton] at hacc
        rcases hacc with hacc | rfl
        · exact Or.inl hacc
        · refine Or.inr ?_
          simp only [keys, List.map_cons, List.count_cons_self]
          have h1 : 0 < (List.map Prod.fst rest).count l := List.count_pos_iff.mpr hmem
          omega
      · refine Or.inr ?_
        simp only [keys, List.map_cons, List.count_cons]
        simp only [keys] at hcount
        omega
    · cases h
      exact ⟨by simp [keys], Or.inl (lookupTag_mem hk)⟩

/-! ### Lemmas about the `select_ok` race -/

theorem raceList_ne_panic {Msg : Type} :
    ∀ xs : List (RRes Msg), xs ≠ [] → (∀ x ∈ xs, x ≠ .panic) → raceList xs ≠ .panic := by
  intro xs
  induction xs with
  | nil => intro h _; exact absurd rfl h
  | cons r rs ih =>
    intro _ hmem
    cases rs with
    | nil => simpa [raceList] using hmem r (List.mem_cons_self _ _)
    | cons s rs' =>
      have hr := hmem r (List.mem_cons_self _ _)
      have htail : raceList (s :: rs') ≠ .panic :=
        ih (by simp) (fun x hx => hmem x (List.mem_cons_of_mem _ hx))
      rcases r with _ | _ | rr
      · exact absurd rfl hr
      · simp only [raceList]
        rcases htl : raceList (s :: rs') with _ | _ | rt
        · exact absurd htl htail
        · simp
        · rcases rt with m | m <;> simp
      · rcases rr with e | m
        · simpa [raceList] using htail
        · simp [raceList]

theorem raceList_ok_of_mem {Msg : Type} :
    ∀ (xs : List (RRes Msg)) (p : Msg), (∀ x ∈ xs, x ≠ .panic) →
      RRes.res (.ok p) ∈ xs →
      ∃ q, raceList xs = .res (.ok q) ∧ RRes.res (.ok q) ∈ xs := by
  intro xs
  induction xs with
  | nil => intro p _ hmem; simp at hmem
  | cons r rs ih =>
    intro p hpanic hmem
    cases rs with
    | nil =>
      simp only [List.mem_singleton] at hmem
      exact ⟨p, by simp [raceList, ← hmem], by simp [hmem]⟩
    | cons s rs' =>
      rcases r with _ | _ | rr
      · exact absurd rfl (hpanic _ (List.mem_cons_self _ _))
      · have hmem' : RRes.res (.ok p) ∈ s :: rs' := by
          rcases List.mem_cons.mp hmem with h | h
          · exact RRes.noConfusion h
          · exact h
        obtain ⟨q, hq, hqmem⟩ :=
          ih p (fun x hx => hpanic x (List.mem_cons_of_mem _ hx)) hmem'
        refine ⟨q, ?_, List.mem_cons_of_mem _ hqmem⟩
        simp only [raceList, hq]
      · rcases rr with e | m
        · have hmem' : RRes.res (.ok p) ∈ s :: rs' := by
            rcases List.mem_cons.mp hmem with h | h
            · simp at h
            · exact h
          obtain ⟨q, hq, hqmem⟩ :=
            ih p (fun x hx => hpanic x (List.mem_cons_of_mem _ hx)) hmem'
          exact ⟨q, by simp [raceList, hq], List.mem_cons_of_mem _ hqmem⟩
        · exact ⟨m, by simp [raceList], List.mem_cons_self _ _⟩

theorem raceList_all_err {Msg : Type} :
    ∀ (xs : List (RRes Msg)) (e : UpstreamError),
      (∀ x ∈ xs, ∃ e', x = .res (.error e')) →
      xs.getLast? = some (.res (.error e)) →
      raceList xs = .res (.error e) := by
  intro xs
  induction xs with
  | nil => intro e _ hlast; exact Option.noConfusion hlast
  | cons r rs ih =>
    intro e hall hlast
    cases rs with
    | nil =>
      simp only [List.getLast?_singleton, Option.some.injEq] at hlast
      simp [raceList, hlast]
    | cons s rs' =>
      obtain ⟨e', he'⟩ := hall r (List.mem_cons_self _ _)
      subst he'
      have hlast' : (s :: rs').getLast? = some (.res (.error e)) := by
        simpa [List.getLast?_cons_cons] using hlast
      have := ih e (fun x hx => hall x (List.mem_cons_of_mem _ hx)) hlast'
      simp [raceList, this]

/-! ### `resolve` never panics on a validated registry -/

theorem resolveF_succ {Msg : Type} (reg : Registry Msg) (fuel : Nat) (tag : Label) (msg : Msg) :
    resolveF reg (fuel + 1) tag msg =
      match lookupTag reg tag with
      | none => .panic
      | some u =>
        match u.tryHybrid with
        | some v => raceList (v.map fun t => resolveF reg fuel t msg)
        | none => .res (u.resolveSelf msg) := rfl

theorem resolveF_ne_panic_of_mem {Msg : Type} {reg : Registry Msg} {b : Bool}
    (hchk : check reg = .ok b) :
    ∀ fuel tag, tag ∈ keys reg → ∀ msg, resolveF reg fuel tag msg ≠ .panic := by
  intro fuel
  induction fuel with
  | zero => intro tag _ msg h; exact RRes.noConfusion h
  | succ f ih =>
    intro tag htag msg h
    obtain ⟨u, hu⟩ := mem_lookupTag htag
    rw [resolveF_succ, hu] at h
    simp only at h
    rcases hv : u.tryHybrid with _ | v <;> rw [hv] at h
    · exact RRes.noConfusion h
    · simp only at h
      obtain ⟨hne, hmem⟩ := check_ok_members hchk hu hv
      refine raceList_ne_panic _ ?_ ?_ h
      · simpa using hne
      · intro x hx
        obtain ⟨m, hm, rfl⟩ := List.mem_map.mp hx
        obtain ⟨u', hu'⟩ := hmem m hm
        exact ih m (lookupTag_mem hu') msg

/-! ### Bridging the decidable well-formedness check and its spec -/

theorem isEmpty_false_iff {α : Type} (l : List α) : l.isEmpty = false ↔ l ≠ [] := by
  cases l <;> simp

theorem hybridsWF_spec {Msg : Type} {reg : Registry Msg} (h : hybridsWF reg = true) :
    ∀ tag u v, lookupTag reg tag = some u → u.tryHybrid = some v →
      v ≠ [] ∧ ∀ m ∈ v, m ∈ keys reg := by
  intro tag u v hu hv
  have hmem := lookupTag_mem_pair hu
  have hall := List.all_eq_true.mp h _ hmem
  simp only at hall
  rw [hv] at hall
  simp only [Bool.and_eq_true, Bool.not_eq_true', isEmpty_false_iff,
    List.all_eq_true, decide_eq_true_eq] at hall
  exact ⟨hall.1, hall.2⟩

theorem hybridsWF_of_spec {Msg : Type} {reg : Registry Msg}
    (hnd : (keys reg).Nodup)
    (h : ∀ tag u v, lookupTag reg tag = some u → u.tryHybrid = some v →
      v ≠ [] ∧ ∀ m ∈ v, m ∈ keys reg) : hybridsWF reg = true := by
  rw [hybridsWF, List.all_eq_true]
  intro p hp
  obtain ⟨k, u⟩ := p
  simp only
  rcases hv : u.tryHybrid with _ | v
  · rfl
  · have hu : lookupTag reg k = some u := lookupTag_of_nodup hnd hp
    obtain ⟨hne, hmem⟩ := h k u v hu hv
    simp only [Bool.and_eq_true, Bool.not_eq_true', isEmpty_false_iff,
      List.all_eq_true, decide_eq_true_eq]
    exact ⟨hne, hmem⟩

/-! ### A rank function rules out cycles -/

theorem no_cycle_of_rank {Msg : Type} {reg : Registry Msg} (f : Label → Nat)
    (h : ∀ x y, Edge reg x y → f y < f x) : ¬ HasCycle reg := by
  rintro ⟨x, hx⟩
  have hlt : ∀ a b, Relation.TransGen (Edge reg) a b → f b < f a := by
    intro a b hab
    induction hab with
    | single h1 => exact h _ _ h1
    | tail _ h2 ih => exact lt_trans (h _ _ h2) ih
  exact lt_irrefl _ (hlt x x hx)

end Upstreams

/-! ### Concrete registries used by the witnesses and counterexamples -/

open Upstreams

/-- An acyclic diamond: two paths from `root` reach the shared member `c`. -/
def diamondReg : Registry Nat :=
  [("root", .hybrid ["a", "b"]), ("a", .hybrid ["c"]), ("b", .hybrid ["c"]),
   ("c", .leaf fun _ => .ok 0)]

/-- The two-element cycle of scenario S2. -/
def loopReg : Registry Nat := [("a", .hybrid ["b"]), ("b", .hybrid ["a"])]

/-- A single hybrid that is cyclic and also references the absent label x. -/
def selfMissReg : Registry Nat := [("a", .hybrid ["a", "x"])]

/-- A validated registry with one hybrid racing a succeeding and a failing
leaf. -/
def ureg : Registry Nat :=
  [("h", .hybrid ["good", "bad"]),
   ("good", .leaf fun _ => .ok 1),
   ("bad", .leaf fun _ => .error (.clientError "boom"))]

/-- A validated registry whose hybrid members all fail. -/
def uregFail : Registry Nat :=
  [("h", .hybrid ["bad1", "bad2"]),
   ("bad1", .leaf fun _ => .error (.clientError "one")),
   ("bad2", .leaf fun _ => .error (.clientError "two"))]

theorem loopReg_hasCycle : HasCycle loopReg := by
  have e1 : Edge loopReg "a" "b" := ⟨.hybrid ["b"], ["b"], rfl, rfl, by simp⟩
  have e2 : Edge loopReg "b" "a" := ⟨.hybrid ["a"], ["a"], rfl, rfl, by simp⟩
  exact ⟨"a", Relation.TransGen.tail (Relation.TransGen.single e1) e2⟩

theorem diamondReg_noCycle : ¬ HasCycle diamondReg := by
  refine no_cycle_of_rank
    (fun l => if l = "root" then 3 else if l = "c" then 1 else 2) ?_
  rintro x y ⟨u, v, hu, hv, hy⟩
  have hp := lookupTag_mem_pair hu
  simp only [diamondReg, List.mem_cons, List.not_mem_nil, or_false, Prod.mk.injEq] at hp
  rcases hp with ⟨rfl, rfl⟩ | ⟨rfl, rfl⟩ | ⟨rfl, rfl⟩ | ⟨rfl, rfl⟩
  · simp only [Upstream.tryHybrid, Option.some.injEq] at hv
    subst hv
    simp only [List.mem_cons, List.not_mem_nil, or_false] at hy
    rcases hy with rfl | rfl
    · decide
    · decide
  · simp only [Upstream.tryHybrid, Option.some.injEq] at hv
    subst hv
    simp only [List.mem_cons, List.not_mem_nil, or_false] at hy
    subst hy
    decide
  · simp only [Upstream.tryHybrid, Option.some.injEq] at hv
    subst hv
    simp only [List.mem_cons, List.not_mem_nil, or_false] at hy
    subst hy
    decide
  · simp [Upstream.tryHybrid] at hv

/-!
## The server front-end (`dcompass/src/main.rs`)

The tokio runtime, sockets and files are abstracted into an `Env` of outcome
oracles; `serve` and `main` become pure functions over those outcomes that
also record the externally visible events they perform.
-/

/-- The subset of `std::io::ErrorKind` the code distinguishes. -/
inductive IOKind where
  | notFound
  | other (code : Nat)
deriving DecidableEq, Repr

/-- An operating-system error as observed by `main`. -/
structure OsError where
  kind : IOKind
deriving DecidableEq, Repr

/-- The DNS Flag Day 2020 receive-buffer size used by `serve`. -/
def dnsBufSize : Nat := 1232

/-- A datagram write into a fixed buffer: the payload overwrites a prefix of
the buffer, the rest of the buffer keeps its previous bytes. -/
def writeInto (buf : List Nat) (d : List Nat) : List Nat :=
  d.take buf.length ++ buf.drop (min d.length buf.length)

/-- The buffer contents after `recv_from` into the zero-initialised 1232-byte
array that `serve` allocates each iteration. -/
def recvBuffer (d : List Nat) : List Nat := writeInto (List.replicate dnsBufSize 0) d

/-- The byte count `recv_from` reports, which `serve` binds to `_` and
discards. -/
def recvCount (d : List Nat) : Nat := min d.length dnsBufSize

/-- Externally visible actions of one pass of the accept loop. -/
inductive ServeAction where
  | warnRecv
  | spawnWorker (buf : List Nat) (src : Nat)
  | awaitLimit
deriving DecidableEq, Repr

/-- The accept loop of `serve` (main.rs lines 84 to 117), one iteration per
receive outcome. A failed `recv_from` logs a warning and continues; a
received datagram spawns a worker on the whole fixed buffer (not the received
prefix) and then awaits the rate limiter. The loop itself never exits: it
consumes every receive outcome, and only the surrounding `select` on Ctrl-C
stops it. -/
def serveSteps : List (Except OsError (List Nat × Nat)) → List ServeAction
  | [] => []
  | .error _ :: rest => .warnRecv :: serveSteps rest
  | .ok (d, src) :: rest =>
    .spawnWorker (recvBuffer d) src :: .awaitLimit :: serveSteps rest

/-! ### The `main` model -/

/-- Command-line arguments (`DcompassOpts`). -/
structure Args where
  config : Option String
  validate : Bool

/-- Errors `main` can return (each constructor corresponds to one
`with_context` site or `?` operator in main.rs). -/
inductive MainError where
  | cwdFail (e : OsError)
  | openSpecified (path : String) (e : OsError)
  | readSpecified (path : String) (e : OsError)
  | openFound (path : String) (e : OsError)
  | readFound (path : String) (e : OsError)
  | parseFail (detail : String)
  | initFail (detail : String)
  | loggerFail
  | bindFail (addr : String) (e : OsError)
deriving DecidableEq, Repr

/-- How the configuration string was obtained. -/
inductive ConfigChoice where
  | specified (path : String)
  | foundCwd (path : String)
  | builtin
deriving DecidableEq, Repr

/-- The environment `main` runs in: outcomes of file system calls, of the
configuration parse (`serde_yaml::from_str`, modelled from the spec since
`parser.rs` is not among the sources), of router construction (`init`), and of
the socket bind. `P` is the parsed configuration type, `R` the router type. -/
structure Env (P R : Type) where
  currentDir : Except OsError String
  openFile : String → Except OsError Unit
  readFile : String → Except OsError String
  builtinConfig : String
  parseYaml : String → Except String P
  buildRouter : P → Except String R
  parsedAddr : P → String
  loggerInit : Except String Unit
  bindSocket : String → Except OsError Unit

/-- Configuration selection (main.rs lines 126 to 163): a path given with
`-c` must open and read; otherwise `config.yaml` under the current directory
is tried, falling back to the compiled-in default exactly when the open fails
with `NotFound`. -/
def selectConfig {P R : Type} (env : Env P R) (args : Args) :
    Except MainError (ConfigChoice × String) :=
  match args.config with
  | some path =>
    match env.openFile path with
    | .error e => .error (.openSpecified path e)
    | .ok _ =>
      match env.readFile path with
      | .error e => .error (.readSpecified path e)
      | .ok s => .ok (.specified path, s)
  | none =>
    match env.currentDir with
    | .error e => .error (.cwdFail e)
    | .ok dir =>
      let path := dir ++ "/config.yaml"
      match env.openFile path with
      | .ok _ =>
        match env.readFile path with
        | .error e => .error (.readFound path e)
        | .ok s => .ok (.foundCwd path, s)
      | .error e =>
        if e.kind = .notFound then .ok (.builtin, env.builtinConfig)
        else .error (.openFound path e)

/-- Externally visible milestones of `main`. -/
inductive MainEvent where
  | chosenConfig (c : ConfigChoice)
  | loggerStarted
  | bindAttempt (addr : String)
  | socketBound (addr : String)
deriving DecidableEq, Repr

/-- How the `main` model finishes (`serving` marks reaching the select loop of
line 203, which we cut at). -/
inductive MainOutcome where
  | validatedOk
  | serving
deriving DecidableEq, Repr

/-- `main` (main.rs lines 121 to 196) up to the select loop: configuration
selection, parse, router construction, the `--validate` early exit before any
logging or binding, then logger start and socket bind. -/
def mainModel {P R : Type} (env : Env P R) (args : Args) :
    Except MainError MainOutcome × List MainEvent :=
  match selectConfig env args with
  | .error e => (.error e, [])
  | .ok (c, cfg) =>
    match env.parseYaml cfg with
    | .error e => (.error (.parseFail e), [.chosenConfig c])
    | .ok p =>
      match env.buildRouter p with
      | .error e => (.error (.initFail e), [.chosenConfig c])
      | .ok _ =>
        if args.validate then (.ok .validatedOk, [.chosenConfig c])
        else
          match env.loggerInit with
          | .error _ => (.error .loggerFail, [.chosenConfig c])
          | .ok _ =>
            match env.bindSocket (env.parsedAddr p) with
            | .error e =>
              (.error (.bindFail (env.parsedAddr p) e),
               [.chosenConfig c, .loggerStarted, .bindAttempt (env.parsedAddr p)])
            | .ok _ =>
              (.ok .serving,
               [.chosenConfig c, .loggerStarted, .bindAttempt (env.parsedAddr p),
                .socketBound (env.parsedAddr p)])

/-! ### The shutdown protocol -/

/-- Capacity of the shutdown broadcast channel (main.rs line 199). -/
def broadcastCapacity : Nat := 10

/-- Events of the Ctrl-C handler. -/
inductive ShutEvent where
  | warnWait
  | sleepFive
  | doneMsg
deriving DecidableEq, Repr

/-- The `while tx.receiver_count() != 0` wait loop (main.rs lines 209 to 212)
over the successive receiver-count samples it observes; `none` means the
sample list ran out while the loop was still waiting. -/
def shutdownWait : List Nat → Option (List ShutEvent)
  | [] => none
  | 0 :: _ => some []
  | (_ + 1) :: rest => (shutdownWait rest).map fun es => .warnWait :: .sleepFive :: es

/-- The Ctrl-C branch of the final select (main.rs lines 205 to 215):
`tx.send(())` fails exactly when no worker is subscribed, in which case the
wait loop is skipped; otherwise the loop polls until a sample is zero. -/
def ctrlcHandler (subscribers : Nat) (counts : List Nat) : Option (List ShutEvent) :=
  if subscribers = 0 then some [.doneMsg]
  else (shutdownWait counts).map fun es => es ++ [.doneMsg]

/-- The warn-and-sleep pairs emitted for a given number of non-zero samples. -/
def waitPairs : Nat → List ShutEvent
  | 0 => []
  | n + 1 => .warnWait :: .sleepFive :: waitPairs n

/-!
## Claim theorems
-/

namespace Upstreams

/-- A registry with a duplicated label, for the C3 witness. -/
def dupReg : Registry Nat :=
  [("a", .leaf fun _ => .ok 0), ("a", .leaf fun _ => .ok 7)]

/-- C1 (amended). For inputs with distinct labels whose hybrids are non-empty
and reference only present labels: a cycle in the hybrid-edge graph forces
`Upstreams::new` to fail with `HybridRecursion`, and every accepted
configuration has an acyclic hybrid-edge graph. (The converse of the original
claim is false: see the counterexample, where an acyclic diamond is also
rejected with `HybridRecursion` because the per-root visited set accumulates
across sibling branches.) -/
theorem upstreams_new_cycle_amended {Msg : Type} (ups : Registry Msg)
    (hnd : (keys ups).Nodup) (hwf : hybridsWF ups = true) :
    (HasCycle ups → ∃ l, new ups = .error (.hybridRecursion l)) ∧
    (∀ reg, new ups = .ok reg → ¬ HasCycle ups) := by
  have hmap : newMap [] ups = .ok ups := by
    simpa using newMap_of_nodup ups [] (by simpa using hnd)
  constructor
  · intro hcyc
    rcases hc : checkTags ups (checkFuel ups) (keys ups) with _ | e | b
    · exact ⟨"", by simp [new, hmap, check, hc]⟩
    · obtain ⟨t, ht, hfail⟩ := checkTags_fail_mem _ _ hc
      obtain ⟨l, rfl⟩ := traverseF_fail_shape (hybridsWF_spec hwf) _ _ _ _ ht hfail
      exact ⟨l, by simp [new, hmap, check, hc]⟩
    · have hchk : check ups = .ok b := by simp [check, hc]
      exact absurd hcyc (check_ok_noCycle hchk)
  · intro reg hok
    rcases hchk : check ups with e | b
    · rw [new, hmap] at hok
      simp only [hchk] at hok
      exact Except.noConfusion hok
    · exact check_ok_noCycle hchk

/-- C1 counterexample: the acyclic diamond (two paths from `root` share the
member `c`) satisfies every hypothesis of the claim yet `Upstreams::new`
rejects it with `HybridRecursion(c)`, so failure is not equivalent to the
existence of a cycle. -/
theorem upstreams_new_cycle_counterexample :
    (keys diamondReg).Nodup ∧ hybridsWF diamondReg = true ∧
    new diamondReg = .error (.hybridRecursion "c") ∧ ¬ HasCycle diamondReg :=
  ⟨by decide, by rfl, by rfl, diamondReg_noCycle⟩

/-- C1 witness: the two-element cycle of scenario S2 is rejected with
`HybridRecursion`. -/
theorem upstreams_new_cycle_witness :
    ∃ l, new loopReg = .error (.hybridRecursion l) :=
  (upstreams_new_cycle_amended loopReg (by decide) (by rfl)).1 loopReg_hasCycle

/-- C10: `Upstreams::check` (with its traversal) terminates on every registry,
cyclic ones included: the depth-bounding fuel is never exhausted, and on a
cyclic registry `check` returns an error rather than diverging. -/
theorem upstreams_check_terminates {Msg : Type} (reg : Registry Msg) :
    checkTags reg (checkFuel reg) (keys reg) ≠ .out ∧
    (HasCycle reg → ∃ e, check reg = .error e) := by
  refine ⟨check_no_fuel_out reg, ?_⟩
  intro hcyc
  rcases hchk : check reg with e | b
  · exact ⟨e, rfl⟩
  · exact absurd hcyc (check_ok_noCycle hchk)

/-- C10 witness: termination and an error on the concrete cyclic registry. -/
theorem upstreams_check_terminates_witness :
    checkTags loopReg (checkFuel loopReg) (keys loopReg) ≠ .out ∧
    (∃ e, check loopReg = .error e) :=
  ⟨(upstreams_check_terminates loopReg).1,
   (upstreams_check_terminates loopReg).2 loopReg_hasCycle⟩

/-- C3 (amended). `Upstreams::new` fails with `MultipleDefinition(l)` for some
label `l` occurring twice when the input has duplicate labels; with distinct
labels it fails whenever some hybrid references an absent label or is empty
(though the reported error may be `HybridRecursion` rather than the variant
naming that condition: see the counterexample); and a registry is returned
exactly when none of the conditions holds. -/
theorem upstreams_new_error_cases_amended {Msg : Type} (ups : Registry Msg) :
    (¬ (keys ups).Nodup →
      ∃ l, new ups = .error (.multipleDef l) ∧ 2 ≤ (keys ups).count l) ∧
    ((keys ups).Nodup → hybridsWF ups = false → ∃ e, new ups = .error e) ∧
    (∀ reg, new ups = .ok reg →
      reg = ups ∧ (keys ups).Nodup ∧ hybridsWF ups = true) := by
  have h3 : ∀ reg, new ups = .ok reg →
      reg = ups ∧ (keys ups).Nodup ∧ hybridsWF ups = true := by
    intro reg hok
    rcases hm : newMap [] ups with e | reg' <;> rw [new, hm] at hok
    · exact Except.noConfusion hok
    · obtain ⟨heq, hnd'⟩ := newMap_ok_eq ups [] reg' hm
      simp only [List.nil_append] at heq
      subst heq
      have hnd : (keys reg').Nodup := hnd' (by simp [keys])
      rcases hchk : check reg' with e | b <;> simp only [hchk] at hok
      · exact Except.noConfusion hok
      · obtain rfl : reg' = reg := by
          simpa using hok
        refine ⟨rfl, hnd, hybridsWF_of_spec hnd ?_⟩
        intro tag u v hu hv
        obtain ⟨hne, hmem⟩ := check_ok_members hchk hu hv
        exact ⟨hne, fun m hm' => lookupTag_mem (hmem m hm').choose_spec⟩
  refine ⟨?_, ?_, h3⟩
  · intro hnotnd
    rcases newMap_cases ups [] with ⟨reg, hreg⟩ | ⟨l, hl⟩
    · obtain ⟨heq, hnd'⟩ := newMap_ok_eq ups [] reg hreg
      simp only [List.nil_append] at heq
      subst heq
      exact absurd (hnd' (by simp [keys])) hnotnd
    · obtain ⟨hmem, hor⟩ := newMap_err_dup ups [] l hl
      rcases hor with hacc | hcount
      · simp [keys] at hacc
      · exact ⟨l, by simp [new, hl], hcount⟩
  · intro hnd hwf
    rcases hv : new ups with e | reg
    · exact ⟨e, rfl⟩
    · have := (h3 reg hv).2.2
      rw [this] at hwf
      exact Bool.noConfusion hwf

/-- C3 counterexample: a single self-recursive hybrid that also references the
absent label x is rejected with `HybridRecursion(a)`, not with
`MissingTag(x)`, although the labels are distinct and a dangling reference
exists. -/
theorem upstreams_new_error_cases_counterexample :
    (keys selfMissReg).Nodup ∧
    lookupTag selfMissReg "a" = some (.hybrid ["a", "x"]) ∧
    "x" ∈ ["a", "x"] ∧ "x" ∉ keys selfMissReg ∧
    new selfMissReg = .error (.hybridRecursion "a") ∧
    ∀ l, new selfMissReg ≠ .error (.missingTag l) := by
  refine ⟨by decide, rfl, by decide, by decide, by rfl, ?_⟩
  intro l h
  rw [show new selfMissReg = .error (.hybridRecursion "a") from rfl] at h
  simp at h

/-- C3 witness: a duplicated label is reported as `MultipleDefinition` of a
label occurring twice. -/
theorem upstreams_new_error_cases_witness :
    ∃ l, new dupReg = .error (.multipleDef l) ∧ 2 ≤ (keys dupReg).count l :=
  (upstreams_new_error_cases_amended dupReg).1 (by decide)

/-- C9: when the tag exists (`Upstreams::exists` succeeds) and the registry
passed `check`, the `unwrap` lookups inside `Upstreams::resolve` never fail:
resolution never panics, for every fuel and every query. -/
theorem upstreams_resolve_no_panic {Msg : Type} (reg : Registry Msg) (tag : Label)
    (hchk : check reg = .ok true) (hex : existsTag reg tag = .ok true) :
    ∀ fuel msg, resolveF reg fuel tag msg ≠ .panic := by
  intro fuel msg
  have htag : tag ∈ keys reg := by
    unfold existsTag at hex
    rcases hu : lookupTag reg tag with _ | u <;> rw [hu] at hex
    · exact Except.noConfusion hex
    · exact lookupTag_mem hu
  exact resolveF_ne_panic_of_mem hchk fuel tag htag msg

/-- C9 witness: resolving the hybrid of the concrete validated registry does
not panic. -/
theorem upstreams_resolve_no_panic_witness :
    resolveF ureg 2 "h" 0 ≠ RRes.panic :=
  upstreams_resolve_no_panic ureg "h" (by rfl) (by rfl) 2 0

end Upstreams

namespace Upstreams

theorem getLast?_ne_nil {α : Type} :
    ∀ (l : List α), l ≠ [] → ∃ a, l.getLast? = some a ∧ a ∈ l := by
  intro l
  induction l with
  | nil => intro h; exact absurd rfl h
  | cons x xs ih =>
    intro _
    cases xs with
    | nil => exact ⟨x, rfl, List.mem_singleton.mpr rfl⟩
    | cons y ys =>
      obtain ⟨a, ha, hmem⟩ := ih (by simp)
      exact ⟨a, by rw [List.getLast?_cons_cons]; exact ha, List.mem_cons_of_mem _ hmem⟩

theorem getLast?_map_some {α β : Type} (f : α → β) :
    ∀ (l : List α) (a : α), l.getLast? = some a → (l.map f).getLast? = some (f a) := by
  intro l
  induction l with
  | nil => intro a h; exact Option.noConfusion h
  | cons x xs ih =>
    intro a h
    cases xs with
    | nil =>
      simp only [List.getLast?_singleton, Option.some.injEq] at h
      subst h
      rfl
    | cons y ys =>
      rw [List.getLast?_cons_cons] at h
      have := ih a h
      simpa [List.getLast?_cons_cons] using this

/-- C2: in a validated registry, resolving a hybrid races the member
resolutions with `select_ok`: whenever some member outcome is a success, the
hybrid result is a success whose payload is some member's payload (a member's
error never wins over another member's success), and when every member
outcome is an error, the hybrid result is the error of the last member. -/
theorem upstreams_resolve_hybrid_race {Msg : Type} (reg : Registry Msg)
    (H : Label) (u : Upstream Msg) (ms : List Label) (fuel : Nat) (msg : Msg)
    (hchk : check reg = .ok true)
    (hu : lookupTag reg H = some u) (hh : u.tryHybrid = some ms) :
    ((∃ m ∈ ms, ∃ p, resolveF reg fuel m msg = .res (.ok p)) →
      ∃ p, resolveF reg (fuel + 1) H msg = .res (.ok p) ∧
        ∃ m ∈ ms, resolveF reg fuel m msg = .res (.ok p)) ∧
    ((∀ m ∈ ms, ∃ e, resolveF reg fuel m msg = .res (.error e)) →
      ∃ last e, ms.getLast? = some last ∧
        resolveF reg fuel last msg = .res (.error e) ∧
        resolveF reg (fuel + 1) H msg = .res (.error e)) := by
  have hunfold : resolveF reg (fuel + 1) H msg =
      raceList (ms.map fun t => resolveF reg fuel t msg) := by
    rw [resolveF_succ, hu]
    simp only
    rw [hh]
  obtain ⟨hne, hmem⟩ := check_ok_members hchk hu hh
  have hnopanic : ∀ x ∈ ms.map (fun t => resolveF reg fuel t msg), x ≠ .panic := by
    intro x hx
    obtain ⟨m, hm, rfl⟩ := List.mem_map.mp hx
    obtain ⟨u', hu'⟩ := hmem m hm
    exact resolveF_ne_panic_of_mem hchk fuel m (lookupTag_mem hu') msg
  constructor
  · rintro ⟨m, hm, p, hp⟩
    have hmm : RRes.res (.ok p) ∈ ms.map (fun t => resolveF reg fuel t msg) :=
      List.mem_map.mpr ⟨m, hm, hp⟩
    obtain ⟨q, hq, hqmem⟩ := raceList_ok_of_mem _ p hnopanic hmm
    obtain ⟨m', hm', hm'eq⟩ := List.mem_map.mp hqmem
    exact ⟨q, by rw [hunfold, hq], m', hm', hm'eq⟩
  · intro hall
    obtain ⟨last, hlast, hlastmem⟩ := getLast?_ne_nil ms hne
    obtain ⟨e, he⟩ := hall last hlastmem
    refine ⟨last, e, hlast, he, ?_⟩
    rw [hunfold]
    refine raceList_all_err _ e ?_ ?_
    · intro x hx
      obtain ⟨m, hm, rfl⟩ := List.mem_map.mp hx
      exact hall m hm
    · have hl2 := getLast?_map_some (fun t => resolveF reg fuel t msg) ms last hlast
      simpa [he] using hl2

/-- C2 witness: racing a succeeding and a failing member yields the
succeeding member's payload. -/
theorem upstreams_resolve_hybrid_race_witness :
    ∃ p, resolveF ureg 2 "h" 0 = RRes.res (.ok p) ∧
      ∃ m ∈ ["good", "bad"], resolveF ureg 1 m 0 = RRes.res (.ok p) :=
  (upstreams_resolve_hybrid_race ureg "h" (.hybrid ["good", "bad"]) ["good", "bad"] 1 0
    (by rfl) (by rfl) (by rfl)).1 ⟨"good", by simp, 1, by rfl⟩

end Upstreams

theorem replicate_drop {α : Type} (a : α) :
    ∀ (m n : Nat), (List.replicate n a).drop m = List.replicate (n - m) a := by
  intro m
  induction m with
  | zero => intro n; simp
  | succ k ih =>
    intro n
    cases n with
    | zero => simp
    | succ n' =>
      rw [List.replicate_succ, List.drop_succ_cons, Nat.succ_sub_succ]
      exact ih n'

/-- C4: each received datagram is handed to the worker as the whole fixed
1232-byte buffer (the byte count reported by `recv_from` is discarded): a
short datagram arrives padded with trailing zeros to 1232 bytes, and a longer
datagram is truncated to its first 1232 bytes. -/
theorem serve_worker_gets_whole_buffer (d : List Nat) (src : Nat)
    (rest : List (Except OsError (List Nat × Nat))) :
    serveSteps (.ok (d, src) :: rest) =
      .spawnWorker (recvBuffer d) src :: .awaitLimit :: serveSteps rest ∧
    (recvBuffer d).length = dnsBufSize ∧
    (d.length ≤ dnsBufSize → recvBuffer d = d ++ List.replicate (dnsBufSize - d.length) 0) ∧
    (dnsBufSize ≤ d.length → recvBuffer d = d.take dnsBufSize) := by
  refine ⟨rfl, ?_, ?_, ?_⟩
  · simp only [recvBuffer, writeInto, List.length_append, List.length_take,
      List.length_drop, List.length_replicate]
    omega
  · intro h
    simp only [recvBuffer, writeInto, List.length_replicate]
    rw [List.take_of_length_le h, replicate_drop]
    have hmin : min d.length dnsBufSize = d.length := Nat.min_eq_left h
    rw [hmin]
  · intro h
    simp only [recvBuffer, writeInto, List.length_replicate]
    have hmin : min d.length dnsBufSize = dnsBufSize := Nat.min_eq_right h
    rw [hmin, replicate_drop]
    simp

/-- C4 witness: a three-byte datagram is padded with zeros to the full buffer
size. -/
theorem serve_worker_gets_whole_buffer_witness :
    recvBuffer [1, 2, 3] = [1, 2, 3] ++ List.replicate (dnsBufSize - 3) 0 :=
  (serve_worker_gets_whole_buffer [1, 2, 3] 0 []).2.2.1 (by decide)

/-- C7: the accept loop never terminates because of a failed receive: it
processes every receive outcome (splitting over any prefix), and an erroneous
receive contributes exactly a warning, with no worker spawned, before the
loop proceeds with the remaining outcomes unchanged. Only the surrounding
select on Ctrl-C, which is outside `serveSteps`, stops the loop. -/
theorem serve_loop_survives_recv_errors :
    (∀ xs ys, serveSteps (xs ++ ys) = serveSteps xs ++ serveSteps ys) ∧
    (∀ (e : OsError) rest, serveSteps (.error e :: rest) = .warnRecv :: serveSteps rest) := by
  constructor
  · intro xs
    induction xs with
    | nil => intro ys; rfl
    | cons x xt ih =>
      intro ys
      rcases x with e | ⟨d, src⟩
      · simp [serveSteps, ih]
      · simp [serveSteps, ih]
  · intro e rest
    rfl

/-- C5: with `--validate` set and a configuration that selects, parses and
builds a router successfully, `main` returns success immediately after
construction and the socket bind is never attempted. -/
theorem main_validate_no_bind {P R : Type} (env : Env P R) (args : Args)
    (c : ConfigChoice) (cfg : String) (p : P) (r : R)
    (hv : args.validate = true)
    (hsel : selectConfig env args = .ok (c, cfg))
    (hp : env.parseYaml cfg = .ok p)
    (hr : env.buildRouter p = .ok r) :
    (mainModel env args).1 = .ok .validatedOk ∧
    ∀ a, MainEvent.bindAttempt a ∉ (mainModel env args).2 := by
  have hmm : mainModel env args = (.ok .validatedOk, [.chosenConfig c]) := by
    simp [mainModel, hsel, hp, hr, hv]
  rw [hmm]
  exact ⟨rfl, fun a h => by simp at h⟩

/-- An environment in which every call succeeds, for the C5 witness. -/
def envOk : Env Unit Unit where
  currentDir := .ok "/srv"
  openFile := fun _ => .ok ()
  readFile := fun _ => .ok "cfg"
  builtinConfig := "builtin"
  parseYaml := fun _ => .ok ()
  buildRouter := fun _ => .ok ()
  parsedAddr := fun _ => "127.0.0.1:53"
  loggerInit := .ok ()
  bindSocket := fun _ => .ok ()

/-- C5 witness: validate-only mode on a concrete succeeding environment. -/
theorem main_validate_no_bind_witness :
    (mainModel envOk ⟨some "conf.yaml", true⟩).1 = .ok .validatedOk ∧
    ∀ a, MainEvent.bindAttempt a ∉ (mainModel envOk ⟨some "conf.yaml", true⟩).2 :=
  main_validate_no_bind envOk ⟨some "conf.yaml", true⟩ (.specified "conf.yaml") "cfg" () ()
    rfl rfl rfl rfl

/-- C6: configuration selection. A user-specified path that fails to open or
read makes `main` fail; without a path, `config.yaml` under the current
directory is tried, and the compiled-in default is used exactly when that
open fails with `NotFound`, while any other open failure, or a read failure
of the found file, makes `main` fail; every selection error is returned by
`main` unchanged. -/
theorem main_config_selection {P R : Type} (env : Env P R) :
    (∀ (b : Bool) path e, env.openFile path = .error e →
      selectConfig env ⟨some path, b⟩ = .error (.openSpecified path e)) ∧
    (∀ (b : Bool) path e, env.openFile path = .ok () → env.readFile path = .error e →
      selectConfig env ⟨some path, b⟩ = .error (.readSpecified path e)) ∧
    (∀ (b : Bool) dir e, env.currentDir = .ok dir →
      env.openFile (dir ++ "/config.yaml") = .error e → e.kind = .notFound →
      selectConfig env ⟨none, b⟩ = .ok (.builtin, env.builtinConfig)) ∧
    (∀ (b : Bool) dir e, env.currentDir = .ok dir →
      env.openFile (dir ++ "/config.yaml") = .error e → e.kind ≠ .notFound →
      selectConfig env ⟨none, b⟩ = .error (.openFound (dir ++ "/config.yaml") e)) ∧
    (∀ (b : Bool) dir e, env.currentDir = .ok dir →
      env.openFile (dir ++ "/config.yaml") = .ok () →
      env.readFile (dir ++ "/config.yaml") = .error e →
      selectConfig env ⟨none, b⟩ = .error (.readFound (dir ++ "/config.yaml") e)) ∧
    (∀ args e, selectConfig env args = .error e → (mainModel env args).1 = .error e) := by
  refine ⟨?_, ?_, ?_, ?_, ?_, ?_⟩
  · intro b path e h
    simp [selectConfig, h]
  · intro b path e ho hr
    simp [selectConfig, ho, hr]
  · intro b dir e hcwd ho hk
    simp [selectConfig, hcwd, ho, hk]
  · intro b dir e hcwd ho hk
    simp [selectConfig, hcwd, ho, hk]
  · intro b dir e hcwd ho hr
    simp [selectConfig, hcwd, ho, hr]
  · intro args e h
    simp [mainModel, h]

/-- An environment whose file opens fail with a permission-style error, for
the C6 witness. -/
def envErr : Env Unit Unit where
  currentDir := .ok "/srv"
  openFile := fun _ => .error ⟨.other 13⟩
  readFile := fun _ => .error ⟨.other 13⟩
  builtinConfig := "builtin"
  parseYaml := fun _ => .ok ()
  buildRouter := fun _ => .ok ()
  parsedAddr := fun _ => "addr"
  loggerInit := .ok ()
  bindSocket := fun _ => .ok ()

/-- An environment in which `config.yaml` is absent, for the C6 witness. -/
def envNotFound : Env Unit Unit where
  currentDir := .ok "/srv"
  openFile := fun _ => .error ⟨.notFound⟩
  readFile := fun _ => .error ⟨.notFound⟩
  builtinConfig := "builtin"
  parseYaml := fun _ => .ok ()
  buildRouter := fun _ => .ok ()
  parsedAddr := fun _ => "addr"
  loggerInit := .ok ()
  bindSocket := fun _ => .ok ()

/-- C6 witness: a failing user-specified open is fatal and propagates, while
an absent `config.yaml` falls back to the compiled-in default. -/
theorem main_config_selection_witness :
    selectConfig envErr ⟨some "boom.yaml", false⟩ =
      .error (.openSpecified "boom.yaml" ⟨.other 13⟩) ∧
    (mainModel envErr ⟨some "boom.yaml", false⟩).1 =
      .error (.openSpecified "boom.yaml" ⟨.other 13⟩) ∧
    selectConfig envNotFound ⟨none, false⟩ = .ok (.builtin, "builtin") := by
  have h1 := main_config_selection (P := Unit) (R := Unit) envErr
  have h2 := main_config_selection (P := Unit) (R := Unit) envNotFound
  refine ⟨h1.1 false "boom.yaml" ⟨.other 13⟩ rfl, ?_, ?_⟩
  · exact h1.2.2.2.2.2 ⟨some "boom.yaml", false⟩ _ (h1.1 false "boom.yaml" ⟨.other 13⟩ rfl)
  · exact h2.2.2.1 false "/srv" ⟨.notFound⟩ rfl rfl rfl

theorem shutdownWait_append (rest : List Nat) :
    ∀ pre, (∀ c ∈ pre, c ≠ 0) →
      shutdownWait (pre ++ 0 :: rest) = some (waitPairs pre.length) := by
  intro pre
  induction pre with
  | nil => intro _; rfl
  | cons c pt ih =>
    intro hpre
    cases c with
    | zero => exact absurd rfl (hpre 0 (List.mem_cons_self _ _))
    | succ c' =>
      have hih := ih (fun x hx => hpre x (List.mem_cons_of_mem _ hx))
      simp [shutdownWait, hih, waitPairs]

/-- C8: the shutdown broadcast channel has capacity 10 (so at least 10); when
no worker is subscribed at signal time the handler finishes immediately, and
when workers remain, the handler emits a warning and sleeps five seconds per
non-zero receiver-count sample until the count reaches zero, then finishes
without error. (The dropping of the accept loop itself is the semantics of
the surrounding `select`, which this model cuts at.) -/
theorem main_shutdown_protocol :
    broadcastCapacity = 10 ∧ 10 ≤ broadcastCapacity ∧
    (∀ counts, ctrlcHandler 0 counts = some [.doneMsg]) ∧
    (∀ (n : Nat) pre rest, (∀ c ∈ pre, c ≠ 0) →
      ctrlcHandler (n + 1) (pre ++ 0 :: rest) =
        some (waitPairs pre.length ++ [.doneMsg])) := by
  refine ⟨rfl, by decide, fun counts => rfl, ?_⟩
  intro n pre rest hpre
  have hwait := shutdownWait_append rest pre hpre
  simp [ctrlcHandler, hwait]

/-- C8 witness: with workers subscribed and receiver counts 2, 1, 0 the
handler warns and sleeps twice, then finishes. -/
theorem main_shutdown_protocol_witness :
    ctrlcHandler 3 ([2, 1] ++ 0 :: []) = some (waitPairs 2 ++ [.doneMsg]) :=
  (main_shutdown_protocol).2.2.2 2 [2, 1] [] (by decide)
